import Mathlib

/-!
Verification development for the email retrieval pipeline
(`src/app/search.ts`, `src/app/api/chat/filter-tool.ts`, chat search tool).

The TypeScript source is shallowly embedded below: pure functions become
Lean functions, the JavaScript `Map` becomes an insertion-ordered
association list with JS `Map.set`/`Map.get` semantics, and
`Array.prototype.sort` (stable since ES2019) with the comparator
`(a, b) => b.score - a.score` becomes a stable descending insertion sort.
External collaborators (the vector generator, the cosine-similarity
primitive, the BM25 scoring primitive, the cache store) are parameters of
the embedded functions, matching the interfaces in the design document.
Scores are modelled as rationals.
-/

/-- Recipient field of an email: the source type is `string | string[]`. -/
inductive EmailTo where
  | single (s : String)
  | several (l : List String)
deriving DecidableEq

/-- The `Email` record of `search.ts` (fields as in the source interface;
`from` and `to` are renamed `from_` and `to_` because they are Lean keywords). -/
structure Email where
  id : String
  threadId : String
  from_ : String
  to_ : EmailTo
  cc : Option (List String) := none
  subject : String
  body : String
  timestamp : String
  inReplyTo : Option String := none
  references : Option (List String) := none
  labels : Option (List String) := none
  arcId : Option String := none
  phaseId : Option Int := none
deriving DecidableEq

/-- The `EmailChunk` record of `search.ts`. -/
structure EmailChunk where
  id : String
  subject : String
  chunk : String
  index : Nat
  totalChunks : Nat
  from_ : String
  to_ : EmailTo
  timestamp : String
deriving DecidableEq

/-- Fallback chunk used to model the TypeScript non-null assertion `!`
(never reached on the inputs the lemmas consider). -/
def defaultEmailChunk : EmailChunk :=
  { id := "", subject := "", chunk := "", index := 0, totalChunks := 0,
    from_ := "", to_ := EmailTo.single "", timestamp := "" }

instance : Inhabited EmailChunk := ⟨defaultEmailChunk⟩

/-- Embedding of `emailChunkToText`: subject and chunk joined by a space. -/
def emailChunkToText (email : EmailChunk) : String :=
  email.subject ++ " " ++ email.chunk

/-- A scored candidate `{ email, score }` as produced by the rankers. -/
structure Candidate where
  email : EmailChunk
  score : ℚ
deriving DecidableEq

/-- Lookup in an insertion-ordered association list; embeds `Map.get`
(returns the value of the first — and only — entry with the key). -/
def mapGet {α : Type} (m : List (String × α)) (k : String) : Option α :=
  (m.find? (fun p => p.1 = k)).map (fun p => p.2)

/-- Embeds `Map.set`: if the key is present its value is replaced in
place (JS `Map` keeps the original insertion position); otherwise the
pair is appended at the end. -/
def mapSet {α : Type} (m : List (String × α)) (k : String) (v : α) :
    List (String × α) :=
  if m.any (fun p => p.1 = k) then
    m.map (fun p => if p.1 = k then (k, v) else p)
  else
    m ++ [(k, v)]

/-- Stable insertion step for a descending sort: the new element goes
after every earlier element with a greater-or-equal key, mirroring a
stable `Array.sort((a, b) => b.score - a.score)`. -/
def insertDesc {α : Type} (f : α → ℚ) (x : α) : List α → List α
  | [] => [x]
  | y :: ys => if f y ≤ f x then x :: y :: ys else y :: insertDesc f x ys

/-- Stable descending sort by key `f`; model of the JS stable sort with
comparator `(a, b) => f b - f a`. -/
def sortByDesc {α : Type} (f : α → ℚ) (l : List α) : List α :=
  l.foldr (insertDesc f) []

/-- Maximum fragment size of the text splitter configuration
(`chunkSize: 1000` in `search.ts`). -/
def chunkSize : Nat := 1000

/-- Fragment overlap of the text splitter configuration
(`chunkOverlap: 100` in `search.ts`). -/
def chunkOverlap : Nat := 100

/-- Modelled from the spec: fuel-indexed splitting loop for bodies longer
than the maximum size. The external `RecursiveCharacterTextSplitter`
library is not part of the repository; per the design document the
splitter keeps each fragment at or under the maximum size and carries the
configured overlap from the end of one fragment into the start of the
next. The fuel (instantiated with the text length, which always
suffices) only makes the recursion structural. -/
def splitChunksFuel : Nat → List Char → List (List Char)
  | 0, cs => [cs]
  | fuel + 1, cs =>
    if cs.length ≤ chunkSize then [cs]
    else cs.take chunkSize :: splitChunksFuel fuel (cs.drop (chunkSize - chunkOverlap))

/-- Modelled from the spec: `textSplitter.splitText`. The library code is
external to the repository; the spec says a fragment is never empty, a
body at or under the maximum size yields exactly one fragment, and longer
bodies are split into fragments at or under the maximum size with the
configured overlap (the separator-priority refinement is irrelevant to
the claims and is not modelled). An empty body therefore yields no
fragment. -/
def splitText (text : String) : List String :=
  if text.length = 0 then []
  else if text.length ≤ chunkSize then [text]
  else (splitChunksFuel text.length text.data).map (fun cs => String.mk cs)

/-- Fragments of one email, as built in the loop body of `chunkEmails`:
each chunk becomes an `EmailChunk` carrying its zero-based index and the
total number of chunks of that email. -/
def chunkEmail (email : Email) : List EmailChunk :=
  let chunks := splitText email.body
  chunks.enum.map (fun p =>
    { id := email.id, index := p.1, subject := email.subject, chunk := p.2,
      from_ := email.from_, to_ := email.to_, timestamp := email.timestamp,
      totalChunks := chunks.length })

/-- Embedding of `chunkEmails`: the imperative loop pushes every email's
fragments in order, preserving the input email order. -/
def chunkEmails (emails : List Email) : List EmailChunk :=
  emails.flatMap chunkEmail

/-- Batch size of the embedding generation loop (`BATCH_SIZE = 99`). -/
def BATCH_SIZE : Nat := 99

/-- Fuel-indexed batching of a list into consecutive slices of
`BATCH_SIZE`, mirroring `for (let i = 0; i < n; i += BATCH_SIZE)` with
`slice(i, i + BATCH_SIZE)`. The fuel (instantiated with the list length,
which always suffices) only makes the recursion structural. -/
def batchesFuel {α : Type} : Nat → List α → List (List α)
  | 0, _ => []
  | fuel + 1, l =>
    if l.isEmpty then []
    else l.take BATCH_SIZE :: batchesFuel fuel (l.drop BATCH_SIZE)

/-- The consecutive batches of `BATCH_SIZE` elements of a list. -/
def batchList {α : Type} (l : List α) : List (List α) := batchesFuel l.length l

/-- Outcome of one `loadOrGenerateEmbeddings` pass: the returned
`results` array of `{ id, embedding }` pairs, the cache store after the
pass, and every text submitted to the external vector generator. -/
structure EmbedPassResult where
  results : List (String × List ℚ)
  store : List (String × List ℚ)
  genTexts : List String
deriving DecidableEq

/-- One iteration of the write-back loop inside `loadOrGenerateEmbeddings`
(`for (let j = 0; j < batch.length; j++) { ... }`): attempt the cache
write (a failed write leaves the store unchanged and is otherwise
ignored), then push `{ id, embedding }` onto the results. -/
def writeAndCollect (writeOk : String → Bool) (a : EmbedPassResult)
    (ce : EmailChunk × List ℚ) : EmbedPassResult :=
  let text := emailChunkToText ce.1
  { a with
    results := a.results ++ [(ce.1.id, ce.2)],
    store := if writeOk text then mapSet a.store text ce.2 else a.store }

/-- One iteration of the batch loop inside `loadOrGenerateEmbeddings`:
hand the batch texts to the external generator (`embedMany`, modelled by
mapping `gen`, order-preserving as its contract requires), record the
submitted texts, then write back and collect each produced vector. -/
def processBatch (gen : String → List ℚ) (writeOk : String → Bool)
    (acc : EmbedPassResult) (batch : List EmailChunk) : EmbedPassResult :=
  let values := batch.map emailChunkToText
  let embeddings := values.map gen
  (batch.zip embeddings).foldl (writeAndCollect writeOk)
    { acc with genTexts := acc.genTexts ++ values }

/-- Embedding of `loadOrGenerateEmbeddings`. The cache store
(`getCachedEmbedding` / `writeEmbeddingToCache` live in
`app/embeddings`, outside the given sources) is modelled from the spec as
a content-keyed association from fragment text to vector; a write
succeeds iff `writeOk` holds for the text and per the design document a
failed write is logged and non-fatal, so the generated vector is pushed
to the results either way. All cache lookups happen before any
generation or write, as in the source: the loop first partitions the
chunks into cached results and `uncachedEmailChunks`, then processes the
uncached ones in batches of `BATCH_SIZE`. -/
def loadOrGenerateEmbeddings (gen : String → List ℚ) (writeOk : String → Bool)
    (store : List (String × List ℚ)) (emailChunks : List EmailChunk) : EmbedPassResult :=
  let results := emailChunks.filterMap (fun c =>
    (mapGet store (emailChunkToText c)).map (fun v => (c.id, v)))
  let uncachedEmailChunks := emailChunks.filter (fun c =>
    (mapGet store (emailChunkToText c)).isNone)
  (batchList uncachedEmailChunks).foldl (processBatch gen writeOk)
    { results := results, store := store, genTexts := [] }

/-- Embedding of `searchWithEmbeddings`. The query embedding call
(`embed`) and `cosineSimilarity` are external collaborators, passed as
`qgen` and `sim`. As in the source, each returned embedding is matched
back to a chunk with `emailChunks.find((e) => e.id === id)!`, the
non-null assertion modelled by `getD defaultEmailChunk`. -/
def searchWithEmbeddings (sim : List ℚ → List ℚ → ℚ) (qgen : String → List ℚ)
    (gen : String → List ℚ) (writeOk : String → Bool)
    (store : List (String × List ℚ)) (query : String)
    (emailChunks : List EmailChunk) : List Candidate :=
  let emailEmbeddings := (loadOrGenerateEmbeddings gen writeOk store emailChunks).results
  let queryEmbedding := qgen query
  let results : List Candidate := emailEmbeddings.map (fun p =>
    { email := (emailChunks.find? (fun e => e.id = p.1)).getD defaultEmailChunk,
      score := sim queryEmbedding p.2 })
  sortByDesc (fun c => c.score) results

/-- The unsorted scored list built inside `searchWithBM25`:
`scores.map((score, idx) => ({ score, email: emailChunks[idx] }))`, with
the external BM25 primitive passed as `score` (per the design document it
returns one score per corpus entry, in corpus order). -/
def bm25Candidates (score : List String → List String → List ℚ)
    (keywords : List String) (emailChunks : List EmailChunk) : List Candidate :=
  let corpus := emailChunks.map emailChunkToText
  let scores := score corpus keywords
  (scores.zip emailChunks).map (fun p => { score := p.1, email := p.2 })

/-- Embedding of `searchWithBM25`: score the corpus, then sort descending
by score (stably, as JS sort is). -/
def searchWithBM25 (score : List String → List String → List ℚ)
    (keywords : List String) (emailChunks : List EmailChunk) : List Candidate :=
  sortByDesc (fun c => c.score) (bm25Candidates score keywords emailChunks)

/-- Rank fusion constant (`RRF_K = 60`). -/
def RRF_K : ℚ := 60

/-- The composite key string written by `reciprocalRankFusion`:
`` `${item.email.id}-${item.email.index}` ``. -/
def chunkKey (email : EmailChunk) : String :=
  email.id ++ "-" ++ toString email.index

/-- One iteration of the `reciprocalRankFusion` inner loop, on the pair
of insertion-ordered maps `(rrfScores, emailMap)` and the `(rank, item)`
pair. Note the source reads the running score with the plain
`item.email.id` but writes under the composite `emailChunkId`. -/
def rrfStep (st : List (String × ℚ) × List (String × EmailChunk))
    (p : Nat × Candidate) : List (String × ℚ) × List (String × EmailChunk) :=
  let emailChunkId := chunkKey p.2.email
  let currentScore := (mapGet st.1 p.2.email.id).getD 0
  let contribution := 1 / (RRF_K + (p.1 : ℚ))
  (mapSet st.1 emailChunkId (currentScore + contribution),
   mapSet st.2 emailChunkId p.2.email)

/-- Processing of one ranking list by `reciprocalRankFusion`
(`ranking.forEach((item, rank) => ...)`). -/
def processRanking (st : List (String × ℚ) × List (String × EmailChunk))
    (ranking : List Candidate) : List (String × ℚ) × List (String × EmailChunk) :=
  ranking.enum.foldl rrfStep st

/-- Embedding of `reciprocalRankFusion`: fold every ranking into the two
maps, then sort the score entries descending (stably) and look each
email up by its key (the `!` assertion modelled by `getD`). -/
def reciprocalRankFusion (rankings : List (List Candidate)) : List Candidate :=
  let st := rankings.foldl processRanking ([], [])
  (sortByDesc (fun p => p.2) st.1).map (fun p =>
    { score := p.2, email := (mapGet st.2 p.1).getD defaultEmailChunk })

/-- Cap passed to the reranker in the chat search tool
(`NUMBER_PASSED_TO_RERANKER = 30`). -/
def NUMBER_PASSED_TO_RERANKER : Nat := 30

/-- The fused candidate list built by the chat search tool before
reranking: both rankings are truncated to their top
`NUMBER_PASSED_TO_RERANKER` entries and fused
(`reciprocalRankFusion([bm25Results.slice(0, 30), embeddingsResults.slice(0, 30)])`). -/
def searchToolFusedResults (bm25Results embeddingsResults : List Candidate) :
    List Candidate :=
  reciprocalRankFusion
    [bm25Results.take NUMBER_PASSED_TO_RERANKER,
     embeddingsResults.take NUMBER_PASSED_TO_RERANKER]

/-- Model of JS `String.prototype.toLowerCase` (code-point-wise). -/
def lowerStr (s : String) : String := String.mk (s.data.map Char.toLower)

/-- Character-list prefix test (needle leads the haystack). -/
def leadsWith : List Char → List Char → Bool
  | [], _ => true
  | _ :: _, [] => false
  | a :: as, b :: bs => a = b && leadsWith as bs

/-- Character-list substring test: some suffix of the haystack starts
with the needle. -/
def includesChars (needle : List Char) : List Char → Bool
  | [] => needle.isEmpty
  | c :: cs => leadsWith needle (c :: cs) || includesChars needle cs

/-- Model of JS `hay.includes(needle)`. -/
def includesStr (hay needle : String) : Bool := includesChars needle.data hay.data

/-- Lexicographic character-list comparison by code point. -/
def charsLt : List Char → List Char → Bool
  | _, [] => false
  | [], _ :: _ => true
  | a :: as, b :: bs =>
    if a.toNat < b.toNat then true
    else if b.toNat < a.toNat then false
    else charsLt as bs

/-- Model of the JS string comparison `s < t` (lexicographic by code
unit; the timestamps compared by the filter tool are ASCII, where code
units and code points agree). -/
def jsStrLt (s t : String) : Bool := charsLt s.data t.data

/-- JS truthiness of an optional string argument (`if (from) ...`):
false when absent and when the empty string. -/
def strTruthy : Option String → Bool
  | none => false
  | some s => !(s == "")

/-- The string the filter tool matches the `to` criterion against:
`Array.isArray(email.to) ? email.to.join(", ") : email.to`. -/
def toFieldString : EmailTo → String
  | EmailTo.single s => s
  | EmailTo.several l => String.intercalate ", " l

/-- Arguments of `filterEmailsTool.execute` (all optional; `limit` is a
JS number, modelled as an integer since only integral values are
relevant to the claims). -/
structure FilterArgs where
  from_ : Option String := none
  to_ : Option String := none
  contains : Option String := none
  before : Option String := none
  after : Option String := none
  limit : Option Int := none
deriving DecidableEq

/-- Model of JS `array.slice(0, end)`: a negative end counts from the end
of the array (`max(length + end, 0)`), a non-negative end is a length
cap. -/
def jsSliceToEnd {α : Type} (endIdx : Int) (l : List α) : List α :=
  if endIdx < 0 then l.take (l.length - endIdx.natAbs)
  else l.take endIdx.toNat

/-- Embedding of `filterEmailsTool.execute` up to the returned email
list (`loadEmails` is the external document source, its result passed as
`emails`; the final projection to the output record shape drops fields
one-for-one and is not modelled). Each provided truthy criterion narrows
`filtered` in turn, then `filtered.slice(0, limit ?? 10)` is returned. -/
def filterEmailsRun (args : FilterArgs) (emails : List Email) : List Email :=
  let filtered := emails
  let filtered := if strTruthy args.from_ then
      filtered.filter (fun email =>
        includesStr (lowerStr email.from_) (lowerStr (args.from_.getD "")))
    else filtered
  let filtered := if strTruthy args.to_ then
      filtered.filter (fun email =>
        includesStr (lowerStr (toFieldString email.to_)) (lowerStr (args.to_.getD "")))
    else filtered
  let filtered := if strTruthy args.contains then
      filtered.filter (fun email =>
        includesStr (lowerStr email.subject) (lowerStr (args.contains.getD "")) ||
        includesStr (lowerStr email.body) (lowerStr (args.contains.getD "")))
    else filtered
  let filtered := if strTruthy args.before then
      filtered.filter (fun email => jsStrLt email.timestamp (args.before.getD ""))
    else filtered
  let filtered := if strTruthy args.after then
      filtered.filter (fun email => jsStrLt (args.after.getD "") email.timestamp)
    else filtered
  jsSliceToEnd (args.limit.getD 10) filtered


theorem mapGet_nil {α : Type} (k : String) : mapGet ([] : List (String × α)) k = none := rfl

theorem mapGet_append {α : Type} (m₁ m₂ : List (String × α)) (k : String) :
    mapGet (m₁ ++ m₂) k = (mapGet m₁ k).or (mapGet m₂ k) := by
  simp only [mapGet, List.find?_append]
  cases List.find? (fun p => p.1 = k) m₁ <;> simp

theorem mapGet_eq_none_iff {α : Type} (m : List (String × α)) (k : String) :
    mapGet m k = none ↔ m.any (fun p => p.1 = k) = false := by
  simp [mapGet, List.find?_eq_none, List.any_eq_false]

theorem mapSet_of_get_none {α : Type} (m : List (String × α)) (k : String) (v : α)
    (h : mapGet m k = none) : mapSet m k v = m ++ [(k, v)] := by
  simp only [mapSet]
  rw [(mapGet_eq_none_iff m k).mp h]
  simp

theorem mapGet_cons_ne {α : Type} (p : String × α) (m : List (String × α)) (k : String)
    (h : p.1 ≠ k) : mapGet (p :: m) k = mapGet m k := by
  simp only [mapGet, List.find?_cons]
  have : (fun q => decide (q.1 = k)) p = false := by simpa using h
  simp [this]

theorem mapGet_cons_self {α : Type} (v : α) (m : List (String × α)) (k : String) :
    mapGet ((k, v) :: m) k = some v := by
  simp [mapGet, List.find?_cons]

theorem length_insertDesc {α : Type} (f : α → ℚ) (x : α) (l : List α) :
    (insertDesc f x l).length = l.length + 1 := by
  induction l with
  | nil => rfl
  | cons y ys ih =>
    by_cases h : f y ≤ f x
    · simp [insertDesc, h]
    · simp [insertDesc, h, ih]

theorem length_sortByDesc {α : Type} (f : α → ℚ) (l : List α) :
    (sortByDesc f l).length = l.length := by
  induction l with
  | nil => rfl
  | cons x xs ih =>
    simp only [sortByDesc, List.foldr_cons] at *
    rw [length_insertDesc, ih, List.length_cons]

theorem mem_insertDesc {α : Type} (f : α → ℚ) (x a : α) (l : List α) :
    a ∈ insertDesc f x l ↔ a = x ∨ a ∈ l := by
  induction l with
  | nil => simp [insertDesc]
  | cons y ys ih =>
    by_cases h : f y ≤ f x
    · rw [insertDesc, if_pos h]
      simp [List.mem_cons]
    · rw [insertDesc, if_neg h]
      simp only [List.mem_cons, ih]
      tauto

theorem mem_sortByDesc {α : Type} (f : α → ℚ) (a : α) (l : List α) :
    a ∈ sortByDesc f l ↔ a ∈ l := by
  induction l with
  | nil => simp [sortByDesc]
  | cons x xs ih =>
    simp only [sortByDesc, List.foldr_cons] at *
    rw [mem_insertDesc, ih]
    simp

theorem pairwise_insertDesc {α : Type} (f : α → ℚ) (x : α) (l : List α)
    (h : l.Pairwise (fun a b => f b ≤ f a)) :
    (insertDesc f x l).Pairwise (fun a b => f b ≤ f a) := by
  induction l with
  | nil => simp [insertDesc]
  | cons y ys ih =>
    rw [List.pairwise_cons] at h
    by_cases hxy : f y ≤ f x
    · rw [insertDesc, if_pos hxy, List.pairwise_cons]
      refine ⟨?_, List.pairwise_cons.mpr h⟩
      intro b hb
      rcases List.mem_cons.mp hb with rfl | hb
      · exact hxy
      · exact le_trans (h.1 b hb) hxy
    · rw [insertDesc, if_neg hxy, List.pairwise_cons]
      refine ⟨?_, ih h.2⟩
      intro b hb
      rw [mem_insertDesc] at hb
      rcases hb with rfl | hb
      · exact le_of_not_le hxy
      · exact h.1 b hb

theorem pairwise_sortByDesc {α : Type} (f : α → ℚ) (l : List α) :
    (sortByDesc f l).Pairwise (fun a b => f b ≤ f a) := by
  induction l with
  | nil => simp [sortByDesc]
  | cons x xs ih =>
    simpa only [sortByDesc, List.foldr_cons] using pairwise_insertDesc f x _ ih

theorem filter_insertDesc {α : Type} (f : α → ℚ) (x : α) (l : List α) (q : ℚ) :
    (insertDesc f x l).filter (fun a => f a = q) =
      if f x = q then x :: l.filter (fun a => f a = q)
      else l.filter (fun a => f a = q) := by
  induction l with
  | nil => by_cases h : f x = q <;> simp [insertDesc, h]
  | cons y ys ih =>
    by_cases hxy : f y ≤ f x
    · rw [insertDesc, if_pos hxy]
      by_cases hx : f x = q <;> simp [List.filter_cons, hx]
    · rw [insertDesc, if_neg hxy]
      have hlt : f x < f y := lt_of_not_le hxy
      by_cases hy : f y = q
      · have hx : ¬ f x = q := by
          intro hx
          rw [hx, hy] at hlt
          exact lt_irrefl q hlt
        simp [List.filter_cons, hy, hx, ih]
      · by_cases hx : f x = q <;> simp [List.filter_cons, hy, hx, ih]

theorem filter_sortByDesc {α : Type} (f : α → ℚ) (l : List α) (q : ℚ) :
    (sortByDesc f l).filter (fun a => f a = q) = l.filter (fun a => f a = q) := by
  induction l with
  | nil => rfl
  | cons x xs ih =>
    simp only [sortByDesc, List.foldr_cons] at *
    rw [filter_insertDesc]
    by_cases hx : f x = q <;> simp [List.filter_cons, hx, ih]

theorem sortByDesc_of_pairwise {α : Type} (f : α → ℚ) (l : List α)
    (h : l.Pairwise (fun a b => f b ≤ f a)) : sortByDesc f l = l := by
  induction l with
  | nil => rfl
  | cons x xs ih =>
    rw [List.pairwise_cons] at h
    simp only [sortByDesc, List.foldr_cons] at *
    rw [ih h.2]
    cases xs with
    | nil => rfl
    | cons y ys => rw [insertDesc, if_pos (h.1 y (List.mem_cons_self y ys))]

theorem splitChunksFuel_ne_nil (fuel : Nat) (cs : List Char) (h : cs ≠ []) :
    ∀ l ∈ splitChunksFuel fuel cs, l ≠ [] := by
  induction fuel generalizing cs with
  | zero =>
    intro l hl
    rw [splitChunksFuel, List.mem_singleton] at hl
    exact hl ▸ h
  | succ fuel ih =>
    intro l hl
    rw [splitChunksFuel] at hl
    by_cases hlen : cs.length ≤ chunkSize
    · rw [if_pos hlen, List.mem_singleton] at hl
      exact hl ▸ h
    · rw [if_neg hlen] at hl
      rcases List.mem_cons.mp hl with rfl | hl
      · intro hnil
        rcases List.take_eq_nil_iff.mp hnil with h1000 | hnil2
        · exact absurd h1000 (by decide)
        · exact h hnil2
      · refine ih (cs.drop (chunkSize - chunkOverlap)) ?_ l hl
        intro hnil
        have := List.drop_eq_nil_iff.mp hnil
        have hgt : chunkSize < cs.length := lt_of_not_le hlen
        have : cs.length ≤ chunkSize := le_trans this (by decide)
        exact hlen this

theorem splitText_ne_empty (text : String) : ∀ s ∈ splitText text, s ≠ "" := by
  intro s hs
  rw [splitText] at hs
  by_cases h0 : text.length = 0
  · rw [if_pos h0] at hs
    exact absurd hs (List.not_mem_nil s)
  · rw [if_neg h0] at hs
    have hdata : text.data ≠ [] := by
      intro hnil
      apply h0
      have : text.length = text.data.length := rfl
      rw [this, hnil]
      rfl
    by_cases hle : text.length ≤ chunkSize
    · rw [if_pos hle, List.mem_singleton] at hs
      subst hs
      intro hempty
      exact hdata (congrArg String.data hempty)
    · rw [if_neg hle] at hs
      obtain ⟨cs, hcs, rfl⟩ := List.mem_map.mp hs
      have hne := splitChunksFuel_ne_nil text.length text.data hdata cs hcs
      intro hempty
      exact hne (congrArg String.data hempty)

theorem string_ne_empty_of_length_ne_zero {s : String} (h : s.length ≠ 0) : s ≠ "" := by
  intro he
  subst he
  exact h rfl

theorem length_ne_zero_of_string_ne_empty {s : String} (h : s ≠ "") : s.length ≠ 0 := by
  intro hlen
  apply h
  apply String.ext
  have hd : s.data.length = 0 := hlen
  exact List.length_eq_zero.mp hd

theorem splitText_of_short (text : String) (h0 : text ≠ "") (hle : text.length ≤ chunkSize) :
    splitText text = [text] := by
  rw [splitText, if_neg (length_ne_zero_of_string_ne_empty h0), if_pos hle]

theorem mem_chunkEmail {c : EmailChunk} {e : Email} (h : c ∈ chunkEmail e) :
    c.id = e.id ∧ c.chunk ∈ splitText e.body ∧
    c.totalChunks = (splitText e.body).length ∧ c.index < (splitText e.body).length := by
  rw [chunkEmail] at h
  obtain ⟨p, hp, rfl⟩ := List.mem_map.mp h
  refine ⟨rfl, ?_, rfl, ?_⟩
  · have := List.enum_map_snd (splitText e.body)
    exact this ▸ List.mem_map_of_mem Prod.snd hp
  · rw [List.mem_enum_iff_getElem?] at hp
    exact (List.getElem?_eq_some.mp hp).1

theorem mem_chunkEmails {c : EmailChunk} {emails : List Email} (h : c ∈ chunkEmails emails) :
    ∃ e ∈ emails, c ∈ chunkEmail e :=
  List.mem_flatMap.mp h

theorem chunkEmails_singleton_of_short (e : Email) (h0 : e.body ≠ "")
    (hle : e.body.length ≤ chunkSize) :
    chunkEmails [e] = [⟨e.id, e.subject, e.body, 0, 1, e.from_, e.to_, e.timestamp⟩] := by
  have hs := splitText_of_short e.body h0 hle
  rw [chunkEmails, List.flatMap_cons, List.flatMap_nil, List.append_nil, chunkEmail, hs]
  rfl

theorem length_chunkEmail (e : Email) :
    (chunkEmail e).length = (splitText e.body).length := by
  rw [chunkEmail, List.length_map, List.enum_length]

theorem chunkEmail_map_index (e : Email) :
    (chunkEmail e).map (fun c => c.index) = List.range (splitText e.body).length := by
  rw [chunkEmail, List.map_map]
  exact List.enum_map_fst (splitText e.body)

theorem chunkEmail_map_id (e : Email) :
    (chunkEmail e).map (fun c => c.id) =
      List.replicate (splitText e.body).length e.id := by
  rw [chunkEmail, List.map_map]
  have h := List.map_const' ((splitText e.body).enum) e.id
  rw [List.enum_length] at h
  exact h

theorem chunkEmails_map_id (emails : List Email) :
    (chunkEmails emails).map (fun c => c.id) =
      emails.flatMap (fun e => List.replicate (splitText e.body).length e.id) := by
  rw [chunkEmails, List.map_flatMap]
  simp only [chunkEmail_map_id]

theorem filter_chunkEmails_of_nodup (emails : List Email)
    (hid : (emails.map (fun e2 => e2.id)).Nodup) (e : Email) (he : e ∈ emails) :
    (chunkEmails emails).filter (fun c => c.id = e.id) = chunkEmail e := by
  induction emails with
  | nil => cases he
  | cons e0 rest ih =>
    rw [List.map_cons, List.nodup_cons] at hid
    rw [chunkEmails, List.flatMap_cons, List.filter_append]
    rcases List.mem_cons.mp he with rfl | he2
    · have h1 : (chunkEmail e).filter (fun c => c.id = e.id) = chunkEmail e := by
        rw [List.filter_eq_self]
        intro c hc
        simp [(mem_chunkEmail hc).1]
      have h2 : (List.flatMap rest chunkEmail).filter (fun c => c.id = e.id) = [] := by
        rw [List.filter_eq_nil_iff]
        intro c hc
        obtain ⟨e2, he2, hce2⟩ := mem_chunkEmails hc
        have hcid : c.id = e2.id := (mem_chunkEmail hce2).1
        simp only [decide_eq_true_eq]
        intro hceq
        apply hid.1
        rw [← hceq, hcid]
        exact List.mem_map_of_mem (fun e2 => e2.id) he2
      rw [h1, h2, List.append_nil]
    · have h1 : (chunkEmail e0).filter (fun c => c.id = e.id) = [] := by
        rw [List.filter_eq_nil_iff]
        intro c hc
        have hcid : c.id = e0.id := (mem_chunkEmail hc).1
        simp only [decide_eq_true_eq]
        intro hceq
        apply hid.1
        rw [← hcid, hceq]
        exact List.mem_map_of_mem (fun e2 => e2.id) he2
      rw [h1, List.nil_append]
      exact ih hid.2 he2

/-- Claim C7: every fragment produced by `chunkEmails` has
`index < totalChunks`; for each input email (ids assumed distinct) the
fragments carrying its id appear with indices `0, 1, ...` in order, so
per-document fragment order is preserved; `totalChunks` equals the number
of fragments produced for the fragment's document; and the id sequence of
the output is the input email sequence with each id repeated
contiguously, so global document order is preserved. The splitter itself
is the external library, modelled from the spec; these invariants hold
for any splitter. -/
theorem chunkEmails_fragment_invariants (emails : List Email) (c : EmailChunk) (e : Email)
    (hid : (emails.map (fun e2 => e2.id)).Nodup)
    (hc : c ∈ chunkEmails emails) (he : e ∈ emails) :
    c.index < c.totalChunks ∧
    ((chunkEmails emails).filter (fun c2 => c2.id = e.id)).map (fun c2 => c2.index) =
      List.range (splitText e.body).length ∧
    (c.id = e.id → c.totalChunks =
      ((chunkEmails emails).filter (fun c2 => c2.id = e.id)).length) ∧
    (chunkEmails emails).map (fun c2 => c2.id) =
      emails.flatMap (fun e2 => List.replicate (splitText e2.body).length e2.id) := by
  obtain ⟨ec, hec, hcec⟩ := mem_chunkEmails hc
  obtain ⟨hcid, _, hctot, hcidx⟩ := mem_chunkEmail hcec
  refine ⟨?_, ?_, ?_, chunkEmails_map_id emails⟩
  · rw [hctot]
    exact hcidx
  · rw [filter_chunkEmails_of_nodup emails hid e he]
    exact chunkEmail_map_index e
  · intro hceq
    have hee : ec = e := by
      apply List.inj_on_of_nodup_map hid hec he
      rw [← hcid]
      exact hceq
    rw [filter_chunkEmails_of_nodup emails hid e he, length_chunkEmail, hctot, hee]

/-- Witness for Claim C7's theorem at a concrete two-email input. -/
theorem chunkEmails_fragment_invariants_witness :
    (([⟨"E1", "T1", "a", EmailTo.single "b", none, "S1", "alpha beta", "2024", none, none, none, none, none⟩,
       ⟨"E2", "T2", "a", EmailTo.single "b", none, "S2", "alpha gamma", "2024", none, none, none, none, none⟩] : List Email).map (fun e2 => e2.id)).Nodup ∧
    (⟨"E1", "S1", "alpha beta", 0, 1, "a", EmailTo.single "b", "2024"⟩ : EmailChunk) ∈
      chunkEmails [⟨"E1", "T1", "a", EmailTo.single "b", none, "S1", "alpha beta", "2024", none, none, none, none, none⟩,
       ⟨"E2", "T2", "a", EmailTo.single "b", none, "S2", "alpha gamma", "2024", none, none, none, none, none⟩] ∧
    (⟨"E1", "S1", "alpha beta", 0, 1, "a", EmailTo.single "b", "2024"⟩ : EmailChunk).index <
      (⟨"E1", "S1", "alpha beta", 0, 1, "a", EmailTo.single "b", "2024"⟩ : EmailChunk).totalChunks :=
  ⟨by decide, by decide,
   (chunkEmails_fragment_invariants
     [⟨"E1", "T1", "a", EmailTo.single "b", none, "S1", "alpha beta", "2024", none, none, none, none, none⟩,
      ⟨"E2", "T2", "a", EmailTo.single "b", none, "S2", "alpha gamma", "2024", none, none, none, none, none⟩]
     (⟨"E1", "S1", "alpha beta", 0, 1, "a", EmailTo.single "b", "2024"⟩ : EmailChunk)
     ⟨"E1", "T1", "a", EmailTo.single "b", none, "S1", "alpha beta", "2024", none, none, none, none, none⟩
     (by decide) (by decide) (by decide)).1⟩

/-- Claim C6 (amended): for every document with a nonempty body of length
at most the maximum fragment size, the chunker produces exactly one
fragment whose text equals the body; and no produced fragment is ever
empty. The splitter is the external library, modelled from the spec; for
the empty body the model yields no fragment at all (see the
counterexample), which forces the nonemptiness proviso. -/
theorem chunker_short_body_single_fragment (e : Email) (emails : List Email)
    (c : EmailChunk) (h0 : e.body ≠ "") (hle : e.body.length ≤ chunkSize)
    (hc : c ∈ chunkEmails emails) :
    chunkEmails [e] = [⟨e.id, e.subject, e.body, 0, 1, e.from_, e.to_, e.timestamp⟩] ∧
    c.chunk ≠ "" := by
  refine ⟨chunkEmails_singleton_of_short e h0 hle, ?_⟩
  obtain ⟨e2, _, hce⟩ := mem_chunkEmails hc
  exact splitText_ne_empty e2.body c.chunk (mem_chunkEmail hce).2.1

/-- Witness for Claim C6's theorem at a concrete short-bodied email. -/
theorem chunker_short_body_single_fragment_witness :
    (("hello" : String) ≠ "" ∧ ("hello" : String).length ≤ chunkSize ∧
      (⟨"E1", "S", "hello", 0, 1, "a", EmailTo.single "b", "2024"⟩ : EmailChunk) ∈
        chunkEmails [⟨"E1", "T", "a", EmailTo.single "b", none, "S", "hello", "2024",
          none, none, none, none, none⟩]) ∧
    (chunkEmails [⟨"E1", "T", "a", EmailTo.single "b", none, "S", "hello", "2024",
        none, none, none, none, none⟩] =
      [⟨"E1", "S", "hello", 0, 1, "a", EmailTo.single "b", "2024"⟩] ∧
     (⟨"E1", "S", "hello", 0, 1, "a", EmailTo.single "b", "2024"⟩ : EmailChunk).chunk ≠ "") :=
  ⟨⟨by decide, by decide, by decide⟩,
   chunker_short_body_single_fragment
     ⟨"E1", "T", "a", EmailTo.single "b", none, "S", "hello", "2024",
      none, none, none, none, none⟩
     [⟨"E1", "T", "a", EmailTo.single "b", none, "S", "hello", "2024",
      none, none, none, none, none⟩]
     ⟨"E1", "S", "hello", 0, 1, "a", EmailTo.single "b", "2024"⟩
     (by decide) (by decide) (by decide)⟩

/-- Claim C6 counterexample: a document whose body is the empty string has
body length at most the maximum fragment size, yet the chunker produces
no fragment for it at all (a fragment may never be empty), so it does not
produce exactly one fragment whose text equals the body. -/
theorem chunker_empty_body_counterexample :
    ((⟨"E1", "T", "a", EmailTo.single "b", none, "S", "", "2024",
        none, none, none, none, none⟩ : Email)).body.length ≤ chunkSize ∧
    chunkEmails [⟨"E1", "T", "a", EmailTo.single "b", none, "S", "", "2024",
        none, none, none, none, none⟩] = [] ∧
    (chunkEmails [⟨"E1", "T", "a", EmailTo.single "b", none, "S", "", "2024",
        none, none, none, none, none⟩]).length ≠ 1 := by
  refine ⟨by decide, by decide, by decide⟩

theorem flatten_batchesFuel {α : Type} (fuel : Nat) (l : List α) (h : l.length ≤ fuel) :
    (batchesFuel fuel l).flatten = l := by
  induction fuel generalizing l with
  | zero =>
    have : l = [] := List.length_eq_zero.mp (Nat.le_zero.mp h)
    subst this
    rfl
  | succ fuel ih =>
    rw [batchesFuel]
    by_cases hl : l.isEmpty
    · rw [if_pos hl, List.isEmpty_iff.mp hl]
      rfl
    · rw [if_neg hl, List.flatten_cons, ih]
      · exact List.take_append_drop BATCH_SIZE l
      · have hne : l ≠ [] := fun he => hl (by rw [he]; rfl)
        have hpos : 0 < l.length := List.length_pos.mpr hne
        rw [List.length_drop]
        simp only [BATCH_SIZE]
        omega

theorem flatten_batchList {α : Type} (l : List α) : (batchList l).flatten = l :=
  flatten_batchesFuel l.length l le_rfl

theorem foldl_writeAndCollect (writeOk : String → Bool) (gen : String → List ℚ)
    (batch : List EmailChunk) : ∀ a : EmbedPassResult,
    ((batch.zip ((batch.map emailChunkToText).map gen)).foldl
        (writeAndCollect writeOk) a).results =
      a.results ++ batch.map (fun c => (c.id, gen (emailChunkToText c))) ∧
    ((batch.zip ((batch.map emailChunkToText).map gen)).foldl
        (writeAndCollect writeOk) a).genTexts = a.genTexts := by
  induction batch with
  | nil => intro a; simp
  | cons c cs ih =>
    intro a
    rw [List.map_cons, List.map_cons, List.zip_cons_cons, List.foldl_cons]
    have h := ih (writeAndCollect writeOk a (c, gen (emailChunkToText c)))
    rw [h.1, h.2]
    refine ⟨?_, rfl⟩
    rw [writeAndCollect]
    simp [List.append_assoc]

theorem foldl_processBatch (gen : String → List ℚ) (writeOk : String → Bool)
    (bs : List (List EmailChunk)) : ∀ acc : EmbedPassResult,
    ((bs.foldl (processBatch gen writeOk) acc).results =
      acc.results ++ bs.flatten.map (fun c => (c.id, gen (emailChunkToText c)))) ∧
    ((bs.foldl (processBatch gen writeOk) acc).genTexts =
      acc.genTexts ++ bs.flatten.map emailChunkToText) := by
  induction bs with
  | nil => intro acc; simp
  | cons b rest ih =>
    intro acc
    rw [List.foldl_cons]
    have hb1 := (foldl_writeAndCollect writeOk gen b
      { acc with genTexts := acc.genTexts ++ b.map emailChunkToText }).1
    have hb2 := (foldl_writeAndCollect writeOk gen b
      { acc with genTexts := acc.genTexts ++ b.map emailChunkToText }).2
    have hrest := ih (processBatch gen writeOk acc b)
    rw [hrest.1, hrest.2, processBatch, hb1, hb2]
    simp [List.flatten_cons, List.map_append, List.append_assoc]

theorem loadOrGenerateEmbeddings_spec (gen : String → List ℚ) (writeOk : String → Bool)
    (store : List (String × List ℚ)) (emailChunks : List EmailChunk) :
    (loadOrGenerateEmbeddings gen writeOk store emailChunks).results =
      emailChunks.filterMap (fun c =>
        (mapGet store (emailChunkToText c)).map (fun v => (c.id, v))) ++
      (emailChunks.filter (fun c => (mapGet store (emailChunkToText c)).isNone)).map
        (fun c => (c.id, gen (emailChunkToText c))) ∧
    (loadOrGenerateEmbeddings gen writeOk store emailChunks).genTexts =
      (emailChunks.filter (fun c => (mapGet store (emailChunkToText c)).isNone)).map
        emailChunkToText := by
  rw [loadOrGenerateEmbeddings]
  have h := foldl_processBatch gen writeOk
    (batchList (emailChunks.filter (fun c => (mapGet store (emailChunkToText c)).isNone)))
    { results := emailChunks.filterMap (fun c =>
        (mapGet store (emailChunkToText c)).map (fun v => (c.id, v))),
      store := store, genTexts := [] }
  rw [flatten_batchList] at h
  exact ⟨h.1, by rw [h.2, List.nil_append]⟩

theorem length_hits_add_misses (store : List (String × List ℚ))
    (emailChunks : List EmailChunk) :
    (emailChunks.filterMap (fun c =>
      (mapGet store (emailChunkToText c)).map (fun v => (c.id, v)))).length +
    (emailChunks.filter (fun c => (mapGet store (emailChunkToText c)).isNone)).length =
    emailChunks.length := by
  induction emailChunks with
  | nil => rfl
  | cons c cs ih =>
    rw [List.filterMap_cons, List.filter_cons]
    cases h : mapGet store (emailChunkToText c) with
    | none =>
      simp [h]
      omega
    | some v =>
      simp [h]
      omega

/-- Claim C8: a failed cache write does not fail the execution — the
returned results array does not depend on which cache writes succeed,
every chunk (cached or freshly embedded) still contributes exactly one
result, and only persistence is affected. The cache-write helper lives
outside the given sources and is modelled from the spec as non-throwing. -/
theorem cacheWriteFailure_nonfatal (gen : String → List ℚ)
    (writeOk writeOk2 : String → Bool) (store : List (String × List ℚ))
    (emailChunks : List EmailChunk) :
    (loadOrGenerateEmbeddings gen writeOk store emailChunks).results =
      (loadOrGenerateEmbeddings gen writeOk2 store emailChunks).results ∧
    (loadOrGenerateEmbeddings gen writeOk store emailChunks).results.length =
      emailChunks.length := by
  have h1 := (loadOrGenerateEmbeddings_spec gen writeOk store emailChunks).1
  have h2 := (loadOrGenerateEmbeddings_spec gen writeOk2 store emailChunks).1
  refine ⟨by rw [h1, h2], ?_⟩
  rw [h1, List.length_append, List.length_map]
  exact length_hits_add_misses store emailChunks

/-- Claim C3 (amended): the texts submitted to the external generator in
one resolve pass are exactly the texts of the fragments that miss the
cache as it stood when the pass began (in input order); in particular a
text already cached before the pass — for example one embedded and
successfully written in an earlier pass of the same run — is never
submitted again. Two identical uncached texts inside one pass, however,
are both submitted, because every lookup happens before any write (see
the counterexample). -/
theorem embeddingCache_generation_calls (gen : String → List ℚ) (writeOk : String → Bool)
    (store : List (String × List ℚ)) (emailChunks : List EmailChunk)
    (t : String) (v : List ℚ) (h : mapGet store t = some v) :
    (loadOrGenerateEmbeddings gen writeOk store emailChunks).genTexts =
      (emailChunks.filter (fun c => (mapGet store (emailChunkToText c)).isNone)).map
        emailChunkToText ∧
    t ∉ (loadOrGenerateEmbeddings gen writeOk store emailChunks).genTexts := by
  have hg := (loadOrGenerateEmbeddings_spec gen writeOk store emailChunks).2
  refine ⟨hg, ?_⟩
  rw [hg]
  intro hmem
  obtain ⟨c, hc, hct⟩ := List.mem_map.mp hmem
  have hnone := (List.mem_filter.mp hc).2
  rw [hct, h] at hnone
  simp at hnone

/-- Witness for Claim C3's theorem: with the text of fragment A cached,
a pass over fragments A and B never submits A's text to the generator. -/
theorem embeddingCache_generation_calls_witness :
    mapGet [("S x", ([] : List ℚ))] "S x" = some [] ∧
    "S x" ∉ (loadOrGenerateEmbeddings (fun _ => []) (fun _ => true)
      [("S x", [])]
      [⟨"A", "S", "x", 0, 1, "f", EmailTo.single "t", "ts"⟩,
       ⟨"B", "S", "y", 0, 1, "f", EmailTo.single "t", "ts"⟩]).genTexts :=
  ⟨by decide,
   (embeddingCache_generation_calls (fun _ => []) (fun _ => true)
     [("S x", [])]
     [⟨"A", "S", "x", 0, 1, "f", EmailTo.single "t", "ts"⟩,
      ⟨"B", "S", "y", 0, 1, "f", EmailTo.single "t", "ts"⟩]
     "S x" [] (by decide)).2⟩

/-- Claim C3 counterexample: two fragments with identical text submitted
in the same resolve pass against an empty cache each issue an external
generation call for that text — the second occurrence is not served from
the cache, contradicting the claim's at-most-one bound. -/
theorem embeddingCache_duplicate_text_counterexample :
    List.count "S x" (loadOrGenerateEmbeddings (fun _ => []) (fun _ => true) []
      [⟨"A", "S", "x", 0, 1, "f", EmailTo.single "t", "ts"⟩,
       ⟨"B", "S", "x", 0, 1, "f", EmailTo.single "t", "ts"⟩]).genTexts = 2 ∧
    ¬ (List.count "S x" (loadOrGenerateEmbeddings (fun _ => []) (fun _ => true) []
      [⟨"A", "S", "x", 0, 1, "f", EmailTo.single "t", "ts"⟩,
       ⟨"B", "S", "x", 0, 1, "f", EmailTo.single "t", "ts"⟩]).genTexts ≤ 1) :=
  ⟨by decide, by decide⟩

/-- Claim C2 evaluation at the failing input: a document with two
fragments. `loadOrGenerateEmbeddings` keys its results by the bare
document id, and `searchWithEmbeddings` recovers the chunk with
`emailChunks.find((e) => e.id === id)!`, which always returns the first
fragment of the document. With fragment 0's vector `[2]` and fragment
1's vector `[5]` cached (similarity modelled by the head of the vector),
the output pairs fragment 0 with both similarity scores — including the
one computed from fragment 1's vector — and fragment 1 never appears. -/
theorem searchWithEmbeddings_misattribution_eval :
    searchWithEmbeddings (fun _ v => v.headD 0) (fun _ => []) (fun _ => []) (fun _ => true)
      [("S x", [2]), ("S y", [5])] "q"
      [⟨"D", "S", "x", 0, 2, "f", EmailTo.single "t", "ts"⟩,
       ⟨"D", "S", "y", 1, 2, "f", EmailTo.single "t", "ts"⟩] =
      [⟨⟨"D", "S", "x", 0, 2, "f", EmailTo.single "t", "ts"⟩, 5⟩,
       ⟨⟨"D", "S", "x", 0, 2, "f", EmailTo.single "t", "ts"⟩, 2⟩] ∧
    (⟨"D", "S", "y", 1, 2, "f", EmailTo.single "t", "ts"⟩ : EmailChunk) ∉
      (searchWithEmbeddings (fun _ v => v.headD 0) (fun _ => []) (fun _ => []) (fun _ => true)
        [("S x", [2]), ("S y", [5])] "q"
        [⟨"D", "S", "x", 0, 2, "f", EmailTo.single "t", "ts"⟩,
         ⟨"D", "S", "y", 1, 2, "f", EmailTo.single "t", "ts"⟩]).map (fun r => r.email) :=
  ⟨by decide, by decide⟩

/-- Claim C5: for every scoring primitive, non-empty keyword set and
fragment corpus, the lexical ranker's output is sorted by non-increasing
score, and for every score value the candidates carrying it appear in
the original fragment order (stability of the sort). -/
theorem searchWithBM25_sorted_stable (score : List String → List String → List ℚ)
    (keywords : List String) (emailChunks : List EmailChunk) (q : ℚ)
    (hk : keywords ≠ []) :
    (searchWithBM25 score keywords emailChunks).Pairwise (fun a b => b.score ≤ a.score) ∧
    (searchWithBM25 score keywords emailChunks).filter (fun c => c.score = q) =
      (bm25Candidates score keywords emailChunks).filter (fun c => c.score = q) :=
  ⟨pairwise_sortByDesc (fun c => c.score) (bm25Candidates score keywords emailChunks),
   filter_sortByDesc (fun c => c.score) (bm25Candidates score keywords emailChunks) q⟩

/-- Witness for Claim C5's theorem at a concrete corpus of two fragments
with equal scores. -/
theorem searchWithBM25_sorted_stable_witness :
    (["alpha"] : List String) ≠ [] ∧
    (searchWithBM25 (fun _ _ => [(1 : ℚ), 1]) ["alpha"]
      [⟨"E1", "S1", "alpha beta", 0, 1, "a", EmailTo.single "b", "t"⟩,
       ⟨"E2", "S2", "alpha gamma", 0, 1, "a", EmailTo.single "b", "t"⟩]).Pairwise
      (fun a b => b.score ≤ a.score) ∧
    (searchWithBM25 (fun _ _ => [(1 : ℚ), 1]) ["alpha"]
      [⟨"E1", "S1", "alpha beta", 0, 1, "a", EmailTo.single "b", "t"⟩,
       ⟨"E2", "S2", "alpha gamma", 0, 1, "a", EmailTo.single "b", "t"⟩]).filter
      (fun c => c.score = 1) =
    (bm25Candidates (fun _ _ => [(1 : ℚ), 1]) ["alpha"]
      [⟨"E1", "S1", "alpha beta", 0, 1, "a", EmailTo.single "b", "t"⟩,
       ⟨"E2", "S2", "alpha gamma", 0, 1, "a", EmailTo.single "b", "t"⟩]).filter
      (fun c => c.score = 1) :=
  ⟨by decide,
   (searchWithBM25_sorted_stable (fun _ _ => [(1 : ℚ), 1]) ["alpha"]
     [⟨"E1", "S1", "alpha beta", 0, 1, "a", EmailTo.single "b", "t"⟩,
      ⟨"E2", "S2", "alpha gamma", 0, 1, "a", EmailTo.single "b", "t"⟩] 1 (by decide)).1,
   (searchWithBM25_sorted_stable (fun _ _ => [(1 : ℚ), 1]) ["alpha"]
     [⟨"E1", "S1", "alpha beta", 0, 1, "a", EmailTo.single "b", "t"⟩,
      ⟨"E2", "S2", "alpha gamma", 0, 1, "a", EmailTo.single "b", "t"⟩] 1 (by decide)).2⟩

theorem mapGet_cons_eq {α : Type} (p : String × α) (m : List (String × α)) (k : String)
    (h : p.1 = k) : mapGet (p :: m) k = some p.2 := by
  simp [mapGet, List.find?_cons, h]

theorem mapGet_map_update_ne {α : Type} (m : List (String × α)) (k : String) (v : α)
    (k' : String) (hne : k' ≠ k) :
    mapGet (m.map (fun p => if p.1 = k then (k, v) else p)) k' = mapGet m k' := by
  induction m with
  | nil => rfl
  | cons p m ih =>
    rw [List.map_cons]
    by_cases hp : p.1 = k
    · rw [if_pos hp, mapGet_cons_ne (k, v) _ k' (fun h => hne h.symm),
        mapGet_cons_ne p m k' (by rw [hp]; exact fun h => hne h.symm)]
      exact ih
    · rw [if_neg hp]
      by_cases hp' : p.1 = k'
      · rw [mapGet_cons_eq p _ k' hp', mapGet_cons_eq p m k' hp']
      · rw [mapGet_cons_ne p _ k' hp', mapGet_cons_ne p m k' hp']
        exact ih

theorem mapGet_map_update_self {α : Type} (m : List (String × α)) (k : String) (v : α)
    (hk : m.any (fun p => p.1 = k) = true) :
    mapGet (m.map (fun p => if p.1 = k then (k, v) else p)) k = some v := by
  induction m with
  | nil => simp at hk
  | cons p m ih =>
    rw [List.map_cons]
    by_cases hp : p.1 = k
    · rw [if_pos hp, mapGet_cons_self]
    · rw [if_neg hp, mapGet_cons_ne p _ k hp]
      apply ih
      rw [List.any_cons] at hk
      simpa [hp] using hk

theorem mapGet_mapSet {α : Type} (m : List (String × α)) (k : String) (v : α) (k' : String) :
    mapGet (mapSet m k v) k' = if k' = k then some v else mapGet m k' := by
  rw [mapSet]
  by_cases hany : m.any (fun p => p.1 = k)
  · rw [if_pos hany]
    by_cases hk' : k' = k
    · subst hk'
      rw [if_pos rfl]
      exact mapGet_map_update_self m k' v hany
    · rw [if_neg hk']
      exact mapGet_map_update_ne m k v k' hk'
  · rw [if_neg hany, mapGet_append]
    by_cases hk' : k' = k
    · subst hk'
      have : mapGet m k' = none := by
        rw [mapGet_eq_none_iff]
        exact Bool.eq_false_iff.mpr hany
      rw [this, if_pos rfl, Option.none_or, mapGet_cons_self]
    · rw [if_neg hk', mapGet_cons_ne (k, v) [] k' (fun h => hk' h.symm), mapGet_nil,
        Option.or_none]

theorem length_mapSet_le {α : Type} (m : List (String × α)) (k : String) (v : α) :
    (mapSet m k v).length ≤ m.length + 1 := by
  rw [mapSet]
  by_cases hany : m.any (fun p => p.1 = k)
  · rw [if_pos hany, List.length_map]
    exact Nat.le_succ m.length
  · rw [if_neg hany, List.length_append]
    exact le_rfl

theorem mem_mapSet {α : Type} (m : List (String × α)) (k : String) (v : α)
    (p : String × α) (h : p ∈ mapSet m k v) : p = (k, v) ∨ p ∈ m := by
  rw [mapSet] at h
  by_cases hany : m.any (fun q => q.1 = k)
  · rw [if_pos hany] at h
    obtain ⟨q, hq, hpq⟩ := List.mem_map.mp h
    by_cases hqk : q.1 = k
    · rw [if_pos hqk] at hpq
      exact Or.inl hpq.symm
    · rw [if_neg hqk] at hpq
      exact Or.inr (hpq ▸ hq)
  · rw [if_neg hany] at h
    rcases List.mem_append.mp h with h1 | h1
    · exact Or.inr h1
    · exact Or.inl (List.mem_singleton.mp h1)

theorem foldl_rrfStep_scores_length (l : List (Nat × Candidate)) :
    ∀ st : List (String × ℚ) × List (String × EmailChunk),
    ((l.foldl rrfStep st).1).length ≤ st.1.length + l.length := by
  induction l with
  | nil => intro st; simp
  | cons p l ih =>
    intro st
    rw [List.foldl_cons]
    refine le_trans (ih (rrfStep st p)) ?_
    have hstep : (rrfStep st p).1.length ≤ st.1.length + 1 :=
      length_mapSet_le st.1 (chunkKey p.2.email) _
    rw [List.length_cons]
    omega

theorem foldl_rrfStep_inv (S : EmailChunk → Prop) (l : List (Nat × Candidate)) :
    ∀ st : List (String × ℚ) × List (String × EmailChunk),
    (∀ p ∈ l, S p.2.email) →
    (∀ q ∈ st.1, ∃ em, mapGet st.2 q.1 = some em ∧ S em) →
    ∀ q ∈ (l.foldl rrfStep st).1,
      ∃ em, mapGet (l.foldl rrfStep st).2 q.1 = some em ∧ S em := by
  induction l with
  | nil =>
    intro st _ hinv q hq
    exact hinv q hq
  | cons p l ih =>
    intro st hS hinv q hq
    rw [List.foldl_cons] at hq ⊢
    refine ih (rrfStep st p) (fun p2 hp2 => hS p2 (List.mem_cons_of_mem p hp2)) ?_ q hq
    intro q2 hq2
    by_cases hqk : q2.1 = chunkKey p.2.email
    · refine ⟨p.2.email, ?_, hS p (List.mem_cons_self p l)⟩
      show mapGet (mapSet st.2 (chunkKey p.2.email) p.2.email) q2.1 = some p.2.email
      rw [mapGet_mapSet, if_pos hqk]
    · rcases mem_mapSet _ _ _ _ hq2 with heq | hold
      · exact absurd (congrArg Prod.fst heq) hqk
      · obtain ⟨em, hem, hSem⟩ := hinv q2 hold
        refine ⟨em, ?_, hSem⟩
        show mapGet (mapSet st.2 (chunkKey p.2.email) p.2.email) q2.1 = some em
        rw [mapGet_mapSet, if_neg hqk]
        exact hem

/-- Claim C9: in the chat search tool both input rankings are truncated
to their top 30 entries before fusion, so the fused list has at most 60
candidates, and every fused candidate's fragment comes from the top 30
of one of the two rankings — a fragment ranked below position 30 in both
never appears, whatever its scores. -/
theorem searchTool_fusion_cap (bm25Results embeddingsResults : List Candidate)
    (res : Candidate)
    (hres : res ∈ searchToolFusedResults bm25Results embeddingsResults) :
    (searchToolFusedResults bm25Results embeddingsResults).length ≤ 60 ∧
    (res.email ∈ (bm25Results.take NUMBER_PASSED_TO_RERANKER).map (fun c => c.email) ∨
     res.email ∈ (embeddingsResults.take NUMBER_PASSED_TO_RERANKER).map (fun c => c.email)) := by
  constructor
  · show (reciprocalRankFusion _).length ≤ 60
    rw [reciprocalRankFusion]
    simp only [List.length_map, length_sortByDesc, List.foldl_cons, List.foldl_nil,
      processRanking]
    have h1 := foldl_rrfStep_scores_length
      ((bm25Results.take NUMBER_PASSED_TO_RERANKER).enum) (([], []))
    have h2 := foldl_rrfStep_scores_length
      ((embeddingsResults.take NUMBER_PASSED_TO_RERANKER).enum)
      (((bm25Results.take NUMBER_PASSED_TO_RERANKER).enum).foldl rrfStep ([], []))
    have hb : (bm25Results.take NUMBER_PASSED_TO_RERANKER).enum.length ≤ 30 := by
      rw [List.enum_length, NUMBER_PASSED_TO_RERANKER]
      simp [List.length_take]
    have he : (embeddingsResults.take NUMBER_PASSED_TO_RERANKER).enum.length ≤ 30 := by
      rw [List.enum_length, NUMBER_PASSED_TO_RERANKER]
      simp [List.length_take]
    simp only [List.length_nil] at h1
    omega
  · rw [searchToolFusedResults, reciprocalRankFusion] at hres
    simp only [List.foldl_cons, List.foldl_nil, processRanking] at hres
    obtain ⟨p, hp, hpe⟩ := List.mem_map.mp hres
    rw [mem_sortByDesc] at hp
    set st := ((embeddingsResults.take NUMBER_PASSED_TO_RERANKER).enum).foldl rrfStep
      (((bm25Results.take NUMBER_PASSED_TO_RERANKER).enum).foldl rrfStep ([], []))
      with hst
    have hinv := foldl_rrfStep_inv
      (fun em => em ∈ (bm25Results.take NUMBER_PASSED_TO_RERANKER).map (fun c => c.email) ∨
                 em ∈ (embeddingsResults.take NUMBER_PASSED_TO_RERANKER).map (fun c => c.email))
      ((embeddingsResults.take NUMBER_PASSED_TO_RERANKER).enum)
      (((bm25Results.take NUMBER_PASSED_TO_RERANKER).enum).foldl rrfStep ([], []))
      ?_ ?_ p hp
    · obtain ⟨em, hem, hSem⟩ := hinv
      have : res.email = em := by
        rw [← hpe]
        show (mapGet st.2 p.1).getD defaultEmailChunk = em
        rw [hem]
        rfl
      rw [this]
      exact hSem
    · intro q hq
      refine Or.inr ?_
      have hq2 : q.2 ∈ embeddingsResults.take NUMBER_PASSED_TO_RERANKER := by
        have := List.enum_map_snd (embeddingsResults.take NUMBER_PASSED_TO_RERANKER)
        exact this ▸ List.mem_map_of_mem Prod.snd hq
      exact List.mem_map_of_mem (fun c => c.email) hq2
    · apply foldl_rrfStep_inv
        (fun em => em ∈ (bm25Results.take NUMBER_PASSED_TO_RERANKER).map (fun c => c.email) ∨
                   em ∈ (embeddingsResults.take NUMBER_PASSED_TO_RERANKER).map (fun c => c.email))
        ((bm25Results.take NUMBER_PASSED_TO_RERANKER).enum) ([], [])
      · intro q hq
        refine Or.inl ?_
        have hq2 : q.2 ∈ bm25Results.take NUMBER_PASSED_TO_RERANKER := by
          have := List.enum_map_snd (bm25Results.take NUMBER_PASSED_TO_RERANKER)
          exact this ▸ List.mem_map_of_mem Prod.snd hq
        exact List.mem_map_of_mem (fun c => c.email) hq2
      · intro q hq
        simp at hq

theorem le_fst_of_mem_enumFrom_list {α : Type} (l : List α) :
    ∀ (j : Nat) (p : Nat × α), p ∈ l.enumFrom j → j ≤ p.1 := by
  induction l with
  | nil => intro j p hp; cases hp
  | cons x xs ih =>
    intro j p hp
    rw [List.enumFrom] at hp
    rcases List.mem_cons.mp hp with rfl | hp2
    · exact le_rfl
    · exact le_trans (Nat.le_succ j) (ih (j + 1) p hp2)

theorem pairwise_fst_lt_enumFrom {α : Type} (l : List α) :
    ∀ j : Nat, (l.enumFrom j).Pairwise (fun a b => a.1 < b.1) := by
  induction l with
  | nil => intro j; simp [List.enumFrom]
  | cons x xs ih =>
    intro j
    rw [List.enumFrom, List.pairwise_cons]
    refine ⟨?_, ih (j + 1)⟩
    intro p hp
    exact lt_of_lt_of_le (Nat.lt_succ_self j) (le_fst_of_mem_enumFrom_list xs (j + 1) p hp)

theorem mapGet_keyed_of_nodup {β : Type} (g : Nat × Candidate → β)
    (l : List (Nat × Candidate))
    (hnd : (l.map (fun q => chunkKey q.2.email)).Nodup) :
    ∀ p ∈ l, mapGet (l.map (fun q => (chunkKey q.2.email, g q)))
      (chunkKey p.2.email) = some (g p) := by
  induction l with
  | nil => intro p hp; cases hp
  | cons q0 l ih =>
    intro p hp
    rw [List.map_cons, List.nodup_cons] at hnd
    rw [List.map_cons]
    rcases List.mem_cons.mp hp with rfl | hp2
    · exact mapGet_cons_eq _ _ _ rfl
    · have hne : (chunkKey q0.2.email, g q0).1 ≠ chunkKey p.2.email := by
        intro he
        apply hnd.1
        have he2 : chunkKey q0.2.email = chunkKey p.2.email := he
        rw [he2]
        exact List.mem_map_of_mem (fun q => chunkKey q.2.email) hp2
      rw [mapGet_cons_ne _ _ _ hne]
      exact ih hnd.2 p hp2

theorem foldl_rrfStep_single (r : List Candidate) :
    ∀ (k : Nat) (s : List (String × ℚ)) (m : List (String × EmailChunk)),
    (∀ c ∈ r, mapGet s c.email.id = none) →
    (∀ c ∈ r, ∀ c2 ∈ r, c.email.id ≠ chunkKey c2.email) →
    (∀ c ∈ r, mapGet s (chunkKey c.email) = none) →
    (∀ c ∈ r, mapGet m (chunkKey c.email) = none) →
    ((r.map (fun c => chunkKey c.email)).Nodup) →
    (r.enumFrom k).foldl rrfStep (s, m) =
      (s ++ (r.enumFrom k).map (fun p => (chunkKey p.2.email, 1 / (RRF_K + (p.1 : ℚ)))),
       m ++ (r.enumFrom k).map (fun p => (chunkKey p.2.email, p.2.email))) := by
  induction r with
  | nil => intro k s m _ _ _ _ _; simp [List.enumFrom]
  | cons c rest ih =>
    intro k s m h1 h2 h3 h4 h5
    rw [List.map_cons, List.nodup_cons] at h5
    have hcmem : c ∈ c :: rest := List.mem_cons_self c rest
    have hstep : rrfStep (s, m) (k, c) =
        (s ++ [(chunkKey c.email, 1 / (RRF_K + (k : ℚ)))],
         m ++ [(chunkKey c.email, c.email)]) := by
      show (mapSet s (chunkKey c.email)
              ((mapGet s c.email.id).getD 0 + 1 / (RRF_K + (k : ℚ))),
            mapSet m (chunkKey c.email) c.email) = _
      rw [h1 c hcmem, Option.getD_none, zero_add,
        mapSet_of_get_none s _ _ (h3 c hcmem),
        mapSet_of_get_none m _ _ (h4 c hcmem)]
    simp only [List.enumFrom, List.foldl_cons, List.map_cons]
    rw [hstep]
    rw [ih (k + 1) (s ++ [(chunkKey c.email, 1 / (RRF_K + (k : ℚ)))])
        (m ++ [(chunkKey c.email, c.email)]) ?_ ?_ ?_ ?_ h5.2]
    · simp [List.append_assoc]
    · intro c2 hc2
      rw [mapGet_append, h1 c2 (List.mem_cons_of_mem c hc2), Option.none_or,
        mapGet_cons_ne _ _ _ (fun he => h2 c2 (List.mem_cons_of_mem c hc2) c hcmem he.symm),
        mapGet_nil]
    · intro c2 hc2 c3 hc3
      exact h2 c2 (List.mem_cons_of_mem c hc2) c3 (List.mem_cons_of_mem c hc3)
    · intro c2 hc2
      have hkne : chunkKey c.email ≠ chunkKey c2.email := by
        intro he
        apply h5.1
        rw [he]
        exact List.mem_map_of_mem (fun c3 => chunkKey c3.email) hc2
      rw [mapGet_append, h3 c2 (List.mem_cons_of_mem c hc2), Option.none_or,
        mapGet_cons_ne _ _ _ hkne, mapGet_nil]
    · intro c2 hc2
      have hkne : chunkKey c.email ≠ chunkKey c2.email := by
        intro he
        apply h5.1
        rw [he]
        exact List.mem_map_of_mem (fun c3 => chunkKey c3.email) hc2
      rw [mapGet_append, h4 c2 (List.mem_cons_of_mem c hc2), Option.none_or,
        mapGet_cons_ne _ _ _ hkne, mapGet_nil]

theorem rrf_single_eq (r : List Candidate)
    (hkeys : (r.map (fun c => chunkKey c.email)).Nodup)
    (hids : ∀ c ∈ r, ∀ c2 ∈ r, c.email.id ≠ chunkKey c2.email) :
    reciprocalRankFusion [r] =
      r.enum.map (fun p => ⟨p.2.email, 1 / (RRF_K + (p.1 : ℚ))⟩) := by
  have henum : r.enum = r.enumFrom 0 := rfl
  have hf := foldl_rrfStep_single r 0 [] []
    (fun c _ => rfl) hids (fun c _ => rfl) (fun c _ => rfl) hkeys
  have hnd_enum : ((r.enumFrom 0).map (fun q => chunkKey q.2.email)).Nodup := by
    have hmm : (r.enumFrom 0).map (fun q => chunkKey q.2.email)
        = r.map (fun c => chunkKey c.email) := by
      rw [← henum]
      rw [show (fun q : Nat × Candidate => chunkKey q.2.email) =
        ((fun c : Candidate => chunkKey c.email) ∘ Prod.snd) from rfl]
      rw [← List.map_map, List.enum_map_snd]
    rw [hmm]
    exact hkeys
  rw [reciprocalRankFusion]
  simp only [List.foldl_cons, List.foldl_nil, processRanking]
  rw [henum, hf]
  simp only [List.nil_append]
  have hsorted : ((r.enumFrom 0).map
      (fun p => (chunkKey p.2.email, 1 / (RRF_K + (p.1 : ℚ))))).Pairwise
      (fun a b => b.2 ≤ a.2) := by
    apply List.Pairwise.map _ ?_ (pairwise_fst_lt_enumFrom r 0)
    intro a b hab
    show 1 / (RRF_K + (b.1 : ℚ)) ≤ 1 / (RRF_K + (a.1 : ℚ))
    have hK : (0 : ℚ) < RRF_K := by norm_num [RRF_K]
    have ha : (0 : ℚ) ≤ (a.1 : ℚ) := Nat.cast_nonneg a.1
    have hab2 : (a.1 : ℚ) ≤ (b.1 : ℚ) := by exact_mod_cast le_of_lt hab
    apply one_div_le_one_div_of_le
    · linarith
    · linarith
  rw [sortByDesc_of_pairwise _ _ hsorted]
  rw [List.map_map]
  apply List.map_congr_left
  intro p hp
  show ({ score := 1 / (RRF_K + (p.1 : ℚ)), email :=
      (mapGet ((r.enumFrom 0).map (fun q => (chunkKey q.2.email, q.2.email)))
        (chunkKey p.2.email)).getD defaultEmailChunk } : Candidate) = _
  rw [mapGet_keyed_of_nodup (fun q => q.2.email) (r.enumFrom 0) hnd_enum p hp]
  rfl

/-- Claim C4 (amended): fusing a single input ranking whose composite
keys (`id-index` strings) are pairwise distinct and in which no
candidate's bare document id equals any candidate's composite key
reproduces the ranking's relative order, with the item at rank `r`
scored exactly `1/(60+r)`. Without this proviso the source's read of the
running score by bare document id can hit another fragment's composite
key and corrupt both scores and order (see the counterexample). -/
theorem rrf_single_ranking_order (r : List Candidate)
    (hkeys : (r.map (fun c => chunkKey c.email)).Nodup)
    (hids : ∀ c ∈ r, ∀ c2 ∈ r, c.email.id ≠ chunkKey c2.email) :
    (reciprocalRankFusion [r]).map (fun c => c.email) = r.map (fun c => c.email) ∧
    (reciprocalRankFusion [r]).map (fun c => c.score) =
      (List.range r.length).map (fun i : Nat => 1 / (RRF_K + (i : ℚ))) := by
  rw [rrf_single_eq r hkeys hids]
  constructor
  · rw [List.map_map]
    rw [show ((fun c : Candidate => c.email) ∘
        (fun p : Nat × Candidate => (⟨p.2.email, 1 / (RRF_K + (p.1 : ℚ))⟩ : Candidate))) =
        ((fun c : Candidate => c.email) ∘ Prod.snd) from rfl]
    rw [← List.map_map, List.enum_map_snd]
  · rw [List.map_map]
    rw [show ((fun c : Candidate => c.score) ∘
        (fun p : Nat × Candidate => (⟨p.2.email, 1 / (RRF_K + (p.1 : ℚ))⟩ : Candidate))) =
        ((fun i : Nat => 1 / (RRF_K + (i : ℚ))) ∘ Prod.fst) from rfl]
    rw [← List.map_map, List.enum_map_fst]

/-- Witness for Claim C4's theorem at a concrete two-item ranking with
collision-free keys. -/
theorem rrf_single_ranking_order_witness :
    (([⟨⟨"A", "S", "x", 0, 1, "f", EmailTo.single "t", "ts"⟩, (2 : ℚ)⟩,
       ⟨⟨"B", "S", "y", 0, 1, "f", EmailTo.single "t", "ts"⟩, (1 : ℚ)⟩] : List Candidate).map
      (fun c => chunkKey c.email)).Nodup ∧
    (∀ c ∈ ([⟨⟨"A", "S", "x", 0, 1, "f", EmailTo.single "t", "ts"⟩, (2 : ℚ)⟩,
             ⟨⟨"B", "S", "y", 0, 1, "f", EmailTo.single "t", "ts"⟩, (1 : ℚ)⟩] : List Candidate),
     ∀ c2 ∈ ([⟨⟨"A", "S", "x", 0, 1, "f", EmailTo.single "t", "ts"⟩, (2 : ℚ)⟩,
              ⟨⟨"B", "S", "y", 0, 1, "f", EmailTo.single "t", "ts"⟩, (1 : ℚ)⟩] : List Candidate),
       c.email.id ≠ chunkKey c2.email) ∧
    (reciprocalRankFusion
      [[⟨⟨"A", "S", "x", 0, 1, "f", EmailTo.single "t", "ts"⟩, (2 : ℚ)⟩,
        ⟨⟨"B", "S", "y", 0, 1, "f", EmailTo.single "t", "ts"⟩, (1 : ℚ)⟩]]).map
      (fun c => c.email) =
      ([⟨⟨"A", "S", "x", 0, 1, "f", EmailTo.single "t", "ts"⟩, (2 : ℚ)⟩,
        ⟨⟨"B", "S", "y", 0, 1, "f", EmailTo.single "t", "ts"⟩, (1 : ℚ)⟩] : List Candidate).map
      (fun c => c.email) ∧
    (reciprocalRankFusion
      [[⟨⟨"A", "S", "x", 0, 1, "f", EmailTo.single "t", "ts"⟩, (2 : ℚ)⟩,
        ⟨⟨"B", "S", "y", 0, 1, "f", EmailTo.single "t", "ts"⟩, (1 : ℚ)⟩]]).map
      (fun c => c.score) =
      (List.range
        ([⟨⟨"A", "S", "x", 0, 1, "f", EmailTo.single "t", "ts"⟩, (2 : ℚ)⟩,
          ⟨⟨"B", "S", "y", 0, 1, "f", EmailTo.single "t", "ts"⟩, (1 : ℚ)⟩] : List Candidate).length).map
        (fun i : Nat => 1 / (RRF_K + (i : ℚ))) :=
  ⟨by decide, by decide,
   (rrf_single_ranking_order _ (by decide) (by decide)).1,
   (rrf_single_ranking_order _ (by decide) (by decide)).2⟩

/-- Claim C4 counterexample: a two-item ranking in which the second
item's document id `A-0` collides with the first item's composite key
`A-0`. The running-score read by bare id then picks up the first item's
contribution, the second item is scored `1/60 + 1/61` instead of `1/61`,
and the fused output reverses the input order. -/
theorem rrf_single_ranking_counterexample :
    (reciprocalRankFusion
      [[⟨⟨"A", "S", "x", 0, 1, "f", EmailTo.single "t", "ts"⟩, 0⟩,
        ⟨⟨"A-0", "S", "y", 0, 1, "f", EmailTo.single "t", "ts"⟩, 0⟩]]).map
      (fun c => c.email) ≠
    [⟨"A", "S", "x", 0, 1, "f", EmailTo.single "t", "ts"⟩,
     ⟨"A-0", "S", "y", 0, 1, "f", EmailTo.single "t", "ts"⟩] := by
  have h1 : "A" ++ "-" ++ toString (0 : Nat) = "A-0" := rfl
  have h2 : "A-0" ++ "-" ++ toString (0 : Nat) = "A-0-0" := rfl
  have h3 : ¬ (("A-0" : String) = "A-0-0") := by decide
  have h4 : ¬ (("A-0-0" : String) = "A-0") := by decide
  norm_num [reciprocalRankFusion, processRanking, rrfStep,
    chunkKey, mapGet, mapSet, sortByDesc, insertDesc, RRF_K,
    defaultEmailChunk, List.enum, List.enumFrom, h1, h2, h3, h4]
  decide

/-- Claim C1 evaluation at the spec's end-to-end example: two rankings,
each listing document D1's single fragment at rank 0 and document D2's
at rank 1. Because the running score is read under the bare document id
(`D1`) while contributions are written under the composite key (`D1-0`),
the read always misses and nothing accumulates: the fused scores are
`1/60` and `1/61` — each fragment's last contribution — not the claimed
sums `1/30` and `2/61`. (D1 still happens to rank above D2 here.) -/
theorem rrf_spec_example_eval :
    (reciprocalRankFusion
      [[⟨⟨"D1", "S", "a", 0, 1, "f", EmailTo.single "t", "ts"⟩, 2⟩,
        ⟨⟨"D2", "S", "b", 0, 1, "f", EmailTo.single "t", "ts"⟩, 1⟩],
       [⟨⟨"D1", "S", "a", 0, 1, "f", EmailTo.single "t", "ts"⟩, 2⟩,
        ⟨⟨"D2", "S", "b", 0, 1, "f", EmailTo.single "t", "ts"⟩, 1⟩]]).map
      (fun c => (c.email.id, c.score)) = [("D1", 1 / 60), ("D2", 1 / 61)] ∧
    (reciprocalRankFusion
      [[⟨⟨"D1", "S", "a", 0, 1, "f", EmailTo.single "t", "ts"⟩, 2⟩,
        ⟨⟨"D2", "S", "b", 0, 1, "f", EmailTo.single "t", "ts"⟩, 1⟩],
       [⟨⟨"D1", "S", "a", 0, 1, "f", EmailTo.single "t", "ts"⟩, 2⟩,
        ⟨⟨"D2", "S", "b", 0, 1, "f", EmailTo.single "t", "ts"⟩, 1⟩]]).map
      (fun c => c.score) ≠ [1 / 30, 2 / 61] := by
  have e1 : "D1" ++ "-" ++ toString (0 : Nat) = "D1-0" := rfl
  have e2 : "D2" ++ "-" ++ toString (0 : Nat) = "D2-0" := rfl
  have n1 : ¬ (("D1-0" : String) = "D2-0") := by decide
  have n2 : ¬ (("D2-0" : String) = "D1-0") := by decide
  have n3 : ¬ (("D1-0" : String) = "D1") := by decide
  have n4 : ¬ (("D2-0" : String) = "D1") := by decide
  have n5 : ¬ (("D1-0" : String) = "D2") := by decide
  have n6 : ¬ (("D2-0" : String) = "D2") := by decide
  constructor
  · norm_num [reciprocalRankFusion, processRanking, rrfStep,
      chunkKey, mapGet, mapSet, sortByDesc, insertDesc, RRF_K,
      defaultEmailChunk, List.enum, List.enumFrom, e1, e2, n1, n2, n3, n4, n5, n6]
  · norm_num [reciprocalRankFusion, processRanking, rrfStep,
      chunkKey, mapGet, mapSet, sortByDesc, insertDesc, RRF_K,
      defaultEmailChunk, List.enum, List.enumFrom, e1, e2, n1, n2, n3, n4, n5, n6]

/-- Witness for Claim C9's theorem at a concrete singleton ranking. -/
theorem searchTool_fusion_cap_witness :
    (⟨⟨"A", "S", "x", 0, 1, "f", EmailTo.single "t", "ts"⟩, 1 / 60⟩ : Candidate) ∈
      searchToolFusedResults
        [⟨⟨"A", "S", "x", 0, 1, "f", EmailTo.single "t", "ts"⟩, 1⟩] [] ∧
    (searchToolFusedResults
      [⟨⟨"A", "S", "x", 0, 1, "f", EmailTo.single "t", "ts"⟩, 1⟩] []).length ≤ 60 ∧
    ((⟨⟨"A", "S", "x", 0, 1, "f", EmailTo.single "t", "ts"⟩, 1 / 60⟩ : Candidate).email ∈
      (([⟨⟨"A", "S", "x", 0, 1, "f", EmailTo.single "t", "ts"⟩, 1⟩] : List Candidate).take
        NUMBER_PASSED_TO_RERANKER).map (fun c => c.email) ∨
     (⟨⟨"A", "S", "x", 0, 1, "f", EmailTo.single "t", "ts"⟩, 1 / 60⟩ : Candidate).email ∈
      (([] : List Candidate).take NUMBER_PASSED_TO_RERANKER).map (fun c => c.email)) := by
  have hmem : (⟨⟨"A", "S", "x", 0, 1, "f", EmailTo.single "t", "ts"⟩, 1 / 60⟩ : Candidate) ∈
      searchToolFusedResults
        [⟨⟨"A", "S", "x", 0, 1, "f", EmailTo.single "t", "ts"⟩, 1⟩] [] := by
    norm_num [searchToolFusedResults, reciprocalRankFusion, processRanking, rrfStep,
      chunkKey, mapGet, mapSet, sortByDesc, insertDesc, RRF_K, NUMBER_PASSED_TO_RERANKER,
      defaultEmailChunk, List.enum, List.enumFrom]
  exact ⟨hmem,
    (searchTool_fusion_cap [⟨⟨"A", "S", "x", 0, 1, "f", EmailTo.single "t", "ts"⟩, 1⟩] []
      ⟨⟨"A", "S", "x", 0, 1, "f", EmailTo.single "t", "ts"⟩, 1 / 60⟩ hmem).1,
    (searchTool_fusion_cap [⟨⟨"A", "S", "x", 0, 1, "f", EmailTo.single "t", "ts"⟩, 1⟩] []
      ⟨⟨"A", "S", "x", 0, 1, "f", EmailTo.single "t", "ts"⟩, 1 / 60⟩ hmem).2⟩

theorem includesChars_nil (h : List Char) : includesChars [] h = true := by
  cases h <;> simp [includesChars, leadsWith]

theorem includesStr_empty (s : String) : includesStr s "" = true :=
  includesChars_nil s.data

theorem charsLt_irrefl (l : List Char) : charsLt l l = false := by
  induction l with
  | nil => rfl
  | cons a as ih => simp [charsLt, ih]

theorem jsStrLt_irrefl (s : String) : jsStrLt s s = false := charsLt_irrefl s.data

theorem strTruthy_some_of_ne {s : String} (h : s ≠ "") : strTruthy (some s) = true := by
  simp [strTruthy, h]

theorem mem_iteFilter {α : Type} (b : Bool) (p : α → Bool) (l : List α) (e : α)
    (h : e ∈ (if b = true then l.filter p else l)) : e ∈ l ∧ (b = true → p e = true) := by
  cases b
  · rw [if_neg (by simp)] at h
    exact ⟨h, fun hh => by cases hh⟩
  · rw [if_pos rfl] at h
    have := List.mem_filter.mp h
    exact ⟨this.1, fun _ => this.2⟩

theorem sublist_iteFilter {α : Type} (b : Bool) (p : α → Bool) (l : List α) :
    (if b = true then l.filter p else l).Sublist l := by
  cases b
  · rw [if_neg (by simp)]
  · rw [if_pos rfl]
    exact List.filter_sublist l

theorem jsSliceToEnd_sublist {α : Type} (n : Int) (l : List α) :
    (jsSliceToEnd n l).Sublist l := by
  rw [jsSliceToEnd]
  split <;> exact List.take_sublist _ _

theorem mem_jsSliceToEnd {α : Type} (n : Int) (l : List α) (e : α)
    (h : e ∈ jsSliceToEnd n l) : e ∈ l :=
  (jsSliceToEnd_sublist n l).mem h

theorem length_jsSliceToEnd_le {α : Type} (n : Int) (l : List α) (hn : 0 ≤ n) :
    ((jsSliceToEnd n l).length : Int) ≤ n := by
  rw [jsSliceToEnd, if_neg (not_lt.mpr hn)]
  have h1 : (l.take n.toNat).length ≤ n.toNat := by simp [List.length_take]
  omega

/-- Claim C10 (amended): for every input whose `limit`, when provided, is
non-negative and whose `before`/`after`, when provided, are non-empty
(the tool's JS truthiness check silently ignores empty-string criteria
and a negative limit defeats the cap — see the counterexample), the
filter tool returns at most `limit` (default 10) emails, every returned
email satisfies all provided criteria conjunctively — case-insensitive
substring match for `from`/`to`/`contains`, strict lexicographic
comparison for `before`/`after`, an email whose timestamp equals a bound
being excluded — and the returned emails form a subsequence of the
loaded emails, preserving their order. -/
theorem filterEmailsTool_filters (args : FilterArgs) (emails : List Email) (e : Email)
    (hlimit : ∀ l, args.limit = some l → 0 ≤ l)
    (hbefore : args.before ≠ some "")
    (hafter : args.after ≠ some "")
    (he : e ∈ filterEmailsRun args emails) :
    ((filterEmailsRun args emails).length : Int) ≤ args.limit.getD 10 ∧
    (filterEmailsRun args emails).Sublist emails ∧
    (∀ f, args.from_ = some f →
      includesStr (lowerStr e.from_) (lowerStr f) = true) ∧
    (∀ t, args.to_ = some t →
      includesStr (lowerStr (toFieldString e.to_)) (lowerStr t) = true) ∧
    (∀ sub, args.contains = some sub →
      (includesStr (lowerStr e.subject) (lowerStr sub) ||
       includesStr (lowerStr e.body) (lowerStr sub)) = true) ∧
    (∀ b, args.before = some b → jsStrLt e.timestamp b = true ∧ e.timestamp ≠ b) ∧
    (∀ a, args.after = some a → jsStrLt a e.timestamp = true ∧ e.timestamp ≠ a) := by
  simp only [filterEmailsRun] at he ⊢
  have hA := mem_jsSliceToEnd _ _ _ he
  obtain ⟨hB, hafterP⟩ := mem_iteFilter _ _ _ _ hA
  obtain ⟨hC, hbeforeP⟩ := mem_iteFilter _ _ _ _ hB
  obtain ⟨hD, hcontainsP⟩ := mem_iteFilter _ _ _ _ hC
  obtain ⟨hE, htoP⟩ := mem_iteFilter _ _ _ _ hD
  obtain ⟨hF, hfromP⟩ := mem_iteFilter _ _ _ _ hE
  refine ⟨?_, ?_, ?_, ?_, ?_, ?_, ?_⟩
  · apply length_jsSliceToEnd_le
    cases hl : args.limit with
    | none => simp
    | some l =>
      simp only [Option.getD_some]
      exact hlimit l hl
  · exact (jsSliceToEnd_sublist _ _).trans ((sublist_iteFilter _ _ _).trans
      ((sublist_iteFilter _ _ _).trans ((sublist_iteFilter _ _ _).trans
      ((sublist_iteFilter _ _ _).trans (sublist_iteFilter _ _ _)))))
  · intro f hf
    by_cases hf0 : f = ""
    · subst hf0
      exact includesStr_empty (lowerStr e.from_)
    · have hp := hfromP (by rw [hf]; exact strTruthy_some_of_ne hf0)
      rw [hf] at hp
      simpa using hp
  · intro t ht
    by_cases ht0 : t = ""
    · subst ht0
      exact includesStr_empty (lowerStr (toFieldString e.to_))
    · have hp := htoP (by rw [ht]; exact strTruthy_some_of_ne ht0)
      rw [ht] at hp
      simpa using hp
  · intro sub hsub
    by_cases hs0 : sub = ""
    · subst hs0
      have h1 : includesStr (lowerStr e.subject) (lowerStr "") = true :=
        includesStr_empty (lowerStr e.subject)
      rw [h1]
      rfl
    · have hp := hcontainsP (by rw [hsub]; exact strTruthy_some_of_ne hs0)
      rw [hsub] at hp
      simpa using hp
  · intro b hb
    have hb0 : b ≠ "" := by
      intro hb0
      apply hbefore
      rw [hb, hb0]
    have hp := hbeforeP (by rw [hb]; exact strTruthy_some_of_ne hb0)
    rw [hb] at hp
    simp only [Option.getD_some] at hp
    refine ⟨hp, ?_⟩
    intro heq
    rw [heq] at hp
    rw [jsStrLt_irrefl b] at hp
    cases hp
  · intro a ha
    have ha0 : a ≠ "" := by
      intro ha0
      apply hafter
      rw [ha, ha0]
    have hp := hafterP (by rw [ha]; exact strTruthy_some_of_ne ha0)
    rw [ha] at hp
    simp only [Option.getD_some] at hp
    refine ⟨hp, ?_⟩
    intro heq
    rw [← heq] at hp
    rw [jsStrLt_irrefl] at hp
    cases hp

/-- Witness for Claim C10's theorem at a concrete input: criteria
`from = "ali"`, `contains = "report"`, `before = "2025"`,
`after = "2020"`, `limit = 1` over two loaded emails keep exactly the
matching first email. -/
theorem filterEmailsTool_filters_witness :
    (⟨"M1", "T1", "alice@x", EmailTo.single "bob@x", none, "Q report",
       "quarterly numbers", "2024-01-01", none, none, none, none, none⟩ : Email) ∈
      filterEmailsRun ⟨some "ali", none, some "report", some "2025", some "2020", some 1⟩
        [⟨"M1", "T1", "alice@x", EmailTo.single "bob@x", none, "Q report",
          "quarterly numbers", "2024-01-01", none, none, none, none, none⟩,
         ⟨"M2", "T2", "zed@x", EmailTo.single "bob@x", none, "hello",
          "nothing", "2024-02-02", none, none, none, none, none⟩] ∧
    ((filterEmailsRun ⟨some "ali", none, some "report", some "2025", some "2020", some 1⟩
        [⟨"M1", "T1", "alice@x", EmailTo.single "bob@x", none, "Q report",
          "quarterly numbers", "2024-01-01", none, none, none, none, none⟩,
         ⟨"M2", "T2", "zed@x", EmailTo.single "bob@x", none, "hello",
          "nothing", "2024-02-02", none, none, none, none, none⟩]).length : Int) ≤ 1 ∧
    includesStr (lowerStr "alice@x") (lowerStr "ali") = true ∧
    jsStrLt "2024-01-01" "2025" = true ∧
    jsStrLt "2020" "2024-01-01" = true := by
  have hmem : (⟨"M1", "T1", "alice@x", EmailTo.single "bob@x", none, "Q report",
       "quarterly numbers", "2024-01-01", none, none, none, none, none⟩ : Email) ∈
      filterEmailsRun ⟨some "ali", none, some "report", some "2025", some "2020", some 1⟩
        [⟨"M1", "T1", "alice@x", EmailTo.single "bob@x", none, "Q report",
          "quarterly numbers", "2024-01-01", none, none, none, none, none⟩,
         ⟨"M2", "T2", "zed@x", EmailTo.single "bob@x", none, "hello",
          "nothing", "2024-02-02", none, none, none, none, none⟩] := by decide
  have h := filterEmailsTool_filters
    ⟨some "ali", none, some "report", some "2025", some "2020", some 1⟩
    [⟨"M1", "T1", "alice@x", EmailTo.single "bob@x", none, "Q report",
      "quarterly numbers", "2024-01-01", none, none, none, none, none⟩,
     ⟨"M2", "T2", "zed@x", EmailTo.single "bob@x", none, "hello",
      "nothing", "2024-02-02", none, none, none, none, none⟩]
    ⟨"M1", "T1", "alice@x", EmailTo.single "bob@x", none, "Q report",
     "quarterly numbers", "2024-01-01", none, none, none, none, none⟩
    (by intro l hl; injection hl with h2; omega) (by decide) (by decide) hmem
  exact ⟨hmem, h.1, h.2.2.1 "ali" rfl, (h.2.2.2.2.2.1 "2025" rfl).1,
    (h.2.2.2.2.2.2 "2020" rfl).1⟩

/-- Claim C10 counterexample: with a (schema-legal) negative `limit` the
JS `slice(0, limit)` counts from the end of the array instead of
capping: with two loaded emails, no criteria and `limit = -1` the tool
returns one email, which is not at most `limit`. -/
theorem filterEmailsTool_negative_limit_counterexample :
    (filterEmailsRun ⟨none, none, none, none, none, some (-1)⟩
      [⟨"M1", "T1", "a@x", EmailTo.single "b@x", none, "s1", "b1", "2024-01-01",
        none, none, none, none, none⟩,
       ⟨"M2", "T2", "c@x", EmailTo.single "d@x", none, "s2", "b2", "2024-02-02",
        none, none, none, none, none⟩]).length = 1 ∧
    ¬ (((filterEmailsRun ⟨none, none, none, none, none, some (-1)⟩
      [⟨"M1", "T1", "a@x", EmailTo.single "b@x", none, "s1", "b1", "2024-01-01",
        none, none, none, none, none⟩,
       ⟨"M2", "T2", "c@x", EmailTo.single "d@x", none, "s2", "b2", "2024-02-02",
        none, none, none, none, none⟩]).length : Int) ≤
      (Option.getD (some (-1 : Int)) 10)) :=
  ⟨by decide, by decide⟩
